import Mathlib

/-!
Shallow embedding of the item-cleaning pipeline of `scraper.py`
(news-clipping repository): exact-duplicate elimination (`dedup_key` and the
`drop_duplicates` step of `main`), Jaccard title similarity
(`calculate_similarity`), near-duplicate collapsing (`remove_similar_news`),
blacklist filtering (`filter_blacklist`) and priority ordering (`prioritize`).

Modelling conventions:
- Python floats are modelled as exact rationals (`ℚ`); the similarity
  threshold is a rational.
- `pandas` data frames are modelled as Lean lists of `Item` records, row
  order being list order; dropping rows by position is modelled by filtering
  an enumerated list.
- `hashlib.md5` is modelled as an injective fingerprint: the key is the
  hashed base string itself (md5 is deterministic, and the spec asks only
  for a stable, low-collision fingerprint).
- Python's `str.lower` is modelled on ASCII and the Latin-1 letter block;
  `string.punctuation` is exactly the 32 ASCII punctuation characters;
  `str.split()` splits on runs of ASCII whitespace.
-/

/-- One news item, the row type of the `pandas` frame built in `main`:
`{title, link, source, published_at, query}`.  `published_at` is modelled as
an integer timestamp (timezone-aware instants are totally ordered). -/
structure Item where
  title : String
  link : String
  source : String
  published_at : Int
  query : String
  deriving DecidableEq, Repr

/-- `dedup_key(title, link)` of `scraper.py`: md5 of `(title or "") + (link or "")`.
The md5 digest is modelled as the base string itself (an injective stand-in
for a collision-free deterministic hash); for string arguments Python's
`title or ""` is `title` itself. -/
def dedup_key (title link : String) : String := title ++ link

/-- The dedup fingerprint of a row, as computed in `main`:
`dedup_key(r["title"], r["link"])`. -/
def itemKey (x : Item) : String := dedup_key x.title x.link

/-- `string.punctuation`: the 32 ASCII punctuation characters, i.e. the
printable ASCII characters that are neither alphanumeric nor the space. -/
def isPunct (c : Char) : Bool :=
  decide ((0x21 ≤ c.toNat ∧ c.toNat ≤ 0x2F) ∨ (0x3A ≤ c.toNat ∧ c.toNat ≤ 0x40) ∨
    (0x5B ≤ c.toNat ∧ c.toNat ≤ 0x60) ∨ (0x7B ≤ c.toNat ∧ c.toNat ≤ 0x7E))

/-- Python `str.lower`, modelled on ASCII (`Char.toLower`) plus the Latin-1
uppercase letters `À`–`Þ` (excluding `×`), which shift down by 0x20. -/
def lowerChar (c : Char) : Char :=
  if 0xC0 ≤ c.toNat ∧ c.toNat ≤ 0xDE ∧ c.toNat ≠ 0xD7 then Char.ofNat (c.toNat + 0x20)
  else c.toLower

/-- The whitespace characters `str.split()` splits on (ASCII part):
space, tab, newline, carriage return, vertical tab, form feed. -/
def isSpaceChar (c : Char) : Bool :=
  c == ' ' || c == '\t' || c == '\n' || c == '\r' || c.toNat == 0x0B || c.toNat == 0x0C

/-- The normalisation step of `calculate_similarity`:
`text.lower().translate(str.maketrans('', '', string.punctuation))`,
i.e. lower-case, then delete punctuation characters. -/
def normalizeChars (s : String) : List Char :=
  (s.data.map lowerChar).filter (fun c => !isPunct c)

/-- `set(text.split())` after normalisation: split the normalised text on
whitespace runs (Python's `split()` discards empty fields) and collect the
words into a finite set. -/
def tokens (s : String) : Finset String :=
  ((((normalizeChars s).splitOnP isSpaceChar).filter (fun w => !w.isEmpty)).map
    (fun w => String.mk w)).toFinset

/-- `calculate_similarity(text1, text2)` of `scraper.py`: Jaccard similarity
of the two normalised word sets; `0.0` when either input is empty (falsy)
or when the union of the word sets is empty. -/
def calculate_similarity (text1 text2 : String) : ℚ :=
  if text1 = "" ∨ text2 = "" then 0
  else if (tokens text1 ∪ tokens text2).card = 0 then 0
  else ((tokens text1 ∩ tokens text2).card : ℚ) / ((tokens text1 ∪ tokens text2).card : ℚ)

/-- The inner loop of `remove_similar_news` for a fixed kept index `i`:
walk the candidate indices `js`, skip those already in `to_remove`, and add
`j` to `to_remove` whenever `similarity >= similarity_threshold`. -/
def removeInner (titles : List String) (t : ℚ) (i : ℕ) : Finset ℕ → List ℕ → Finset ℕ
  | rem, [] => rem
  | rem, j :: js =>
    if j ∈ rem then removeInner titles t i rem js
    else if t ≤ calculate_similarity (titles.getD i "") (titles.getD j "") then
      removeInner titles t i (insert j rem) js
    else removeInner titles t i rem js

/-- The outer loop of `remove_similar_news`: `removeOuter titles t n` is the
`to_remove` set after the outer iterations `i = 0, …, n-1`; an index `i`
already marked removed is skipped as the kept side. -/
def removeOuter (titles : List String) (t : ℚ) : ℕ → Finset ℕ
  | 0 => ∅
  | i + 1 =>
    let rem := removeOuter titles t i
    if i ∈ rem then rem
    else removeInner titles t i rem (List.range' (i + 1) (titles.length - (i + 1)))

/-- The final `to_remove` set of `remove_similar_news(df, t)`, computed from
the title column `df['title'].tolist()`. -/
def removalSet (titles : List String) (t : ℚ) : Finset ℕ :=
  removeOuter titles t titles.length

/-- `remove_similar_news(df, similarity_threshold)`: drop the rows whose
position is in `to_remove`, keeping the remaining rows in order (for an
empty frame, and when `to_remove` is empty, the frame is returned as is —
both agree with the formula below). -/
def remove_similar_news (items : List Item) (t : ℚ) : List Item :=
  (items.enum.filter
    (fun p => decide (p.1 ∉ removalSet (items.map (fun x => x.title)) t))).map Prod.snd

/-- One step of the exact-duplicate filter
`df.drop_duplicates(subset=["dedup"])` of `main`, with `seen` the set of
fingerprints of the rows already kept: keep a row iff its fingerprint has
not been seen. -/
def dedupExactGo (seen : Finset String) : List Item → List Item
  | [] => []
  | x :: xs =>
    if itemKey x ∈ seen then dedupExactGo seen xs
    else x :: dedupExactGo (insert (itemKey x) seen) xs

/-- The exact-duplicate filter of `main`:
`df["dedup"] = …; df = df.drop_duplicates(subset=["dedup"])` — keep the
first row of each fingerprint group, in row order. -/
def dedupExact (items : List Item) : List Item := dedupExactGo ∅ items

/-- Whether the character at index `i` (if any) is a regex word character
(`\w`): alphanumeric or underscore, plus the Latin-1 letters (Python's `re`
is Unicode-aware; the model covers ASCII and the Latin-1 letter block). -/
def charAtIsWord (cs : List Char) (i : ℕ) : Bool :=
  match cs.get? i with
  | some c => c.isAlphanum || c == '_' ||
      decide (0xC0 ≤ c.toNat ∧ c.toNat ≤ 0xFF ∧ c.toNat ≠ 0xD7 ∧ c.toNat ≠ 0xF7)
  | none => false

/-- The regex word-boundary assertion `\b` at position `p` of `cs` (between
`cs[p-1]` and `cs[p]`): exactly one of the two adjacent positions holds a
word character, positions outside the text counting as non-word. -/
def boundaryAt (cs : List Char) (p : ℕ) : Bool :=
  (decide (0 < p) && charAtIsWord cs (p - 1)) != charAtIsWord cs p

/-- A case-insensitive whole-word match of `term` somewhere in `title`: the
regex `\b re.escape(term) \b` searched with `case=False`, modelled as a
lower-cased literal occurrence flanked by word boundaries. -/
def wordMatch (term title : String) : Bool :=
  let cs := title.data.map lowerChar
  let w := term.data.map lowerChar
  (List.range (cs.length + 1)).any (fun p =>
    decide ((cs.drop p).take w.length = w) && boundaryAt cs p && boundaryAt cs (p + w.length))

/-- The test `df['title'].str.contains(pattern, case=False, na=False, regex=True)`
of `filter_blacklist`, where `pattern` is the alternation
`\b t₁ \b | … | \b tₙ \b` of the escaped blacklist terms: an alternation is
found somewhere iff some term matches as a whole word; a missing title
(`na=False`) never matches. -/
def blacklistMatches (blacklist : List String) (title : Option String) : Bool :=
  match title with
  | none => false
  | some s => blacklist.any (fun w => wordMatch w s)

/-- `filter_blacklist(df, blacklist)`: identity for an empty blacklist,
otherwise keep the rows whose title does not match the blacklist pattern. -/
def filter_blacklist (items : List Item) (blacklist : List String) : List Item :=
  if blacklist = [] then items
  else items.filter (fun x => !blacklistMatches blacklist (some x.title))

/-- Python's substring test `needle in hay` on strings: some contiguous run
of `hay` equals `needle` (always true for an empty needle). -/
def strContains (hay needle : String) : Bool :=
  (List.range (hay.data.length + 1)).any
    (fun p => decide ((hay.data.drop p).take needle.data.length = needle.data))

/-- The inner `score` function of `prioritize`, with explicit enumeration
index: the first preferred domain that occurs as a substring of the link
scores `100 - i`; no match scores `0`. -/
def priorityScoreAux (url : String) : List String → ℕ → ℤ
  | [], _ => 0
  | d :: ds, i => if strContains url d then 100 - (i : ℤ) else priorityScoreAux url ds (i + 1)

/-- `score(url)` of `prioritize`: priority of a link against `prefer_list`. -/
def priorityScore (prefer : List String) (url : String) : ℤ :=
  priorityScoreAux url prefer 0

/-- The comparison used to model
`df.sort_values(["priority", "published_at"], ascending=[False, False])` on
enumerated rows: higher priority first, then later `published_at`, then
lower original position.  Multi-column `sort_values` uses the stable
`np.lexsort`, and a stable sort is exactly a sort by the key extended with
the original position as final tiebreaker. -/
def priorityLe (prefer : List String) (p q : ℕ × Item) : Bool :=
  (decide (priorityScore prefer q.2.link < priorityScore prefer p.2.link)) ||
  ((decide (priorityScore prefer p.2.link = priorityScore prefer q.2.link)) &&
    ((decide (q.2.published_at < p.2.published_at)) ||
      ((decide (p.2.published_at = q.2.published_at)) && decide (p.1 ≤ q.1))))

/-- The sorted enumerated frame inside `prioritize` (for a non-empty
preference list): rows tagged with their original position, sorted by the
stable descending (priority, published_at) order. -/
def prioritizeEnum (items : List Item) (prefer : List String) : List (ℕ × Item) :=
  items.enum.mergeSort (priorityLe prefer)

/-- `prioritize(df, prefer_list)`: identity for an empty preference list,
otherwise the stable descending sort by (priority, published_at)
(the helper `priority` column is added and dropped again, leaving the
original fields untouched). -/
def prioritize (items : List Item) (prefer : List String) : List Item :=
  if prefer = [] then items else (prioritizeEnum items prefer).map Prod.snd

/-- Modelled from the spec's words for the exact-dedup claim as stated:
keep an item iff no earlier item of the input has BOTH the same title and
the same link (duplicate groups formed by the `(title, link)` pair). -/
def firstOccByPairGo (prev : List Item) : List Item → List Item
  | [] => []
  | x :: xs =>
    if prev.any (fun y => y.title == x.title && y.link == x.link) then
      firstOccByPairGo (prev ++ [x]) xs
    else x :: firstOccByPairGo (prev ++ [x]) xs

/-- Modelled from the spec's words (claim as stated): first occurrence per
`(title, link)` pair, in input order. -/
def firstOccByPair (items : List Item) : List Item := firstOccByPairGo [] items

/-- Modelled from the spec's words as amended: keep an item iff no earlier
item of the input has the same dedup fingerprint (duplicate groups formed
by the concatenation `title ++ link`). -/
def firstOccByKeyGo (prev : List Item) : List Item → List Item
  | [] => []
  | x :: xs =>
    if prev.any (fun y => itemKey y == itemKey x) then
      firstOccByKeyGo (prev ++ [x]) xs
    else x :: firstOccByKeyGo (prev ++ [x]) xs

/-- Modelled from the spec's words as amended: first occurrence per dedup
fingerprint, in input order. -/
def firstOccByKey (items : List Item) : List Item := firstOccByKeyGo [] items

/-- Similarity scores are nonnegative. -/
theorem calculate_similarity_nonneg (a b : String) : 0 ≤ calculate_similarity a b := by
  unfold calculate_similarity
  split
  · exact le_refl 0
  · split
    · exact le_refl 0
    · positivity

/-- Similarity scores are at most one. -/
theorem calculate_similarity_le_one (a b : String) : calculate_similarity a b ≤ 1 := by
  unfold calculate_similarity
  split
  · exact zero_le_one
  · split
    · exact zero_le_one
    · rename_i hcard
      have hpos : (0 : ℚ) < ((tokens a ∪ tokens b).card : ℚ) := by
        exact_mod_cast Nat.pos_of_ne_zero hcard
      rw [div_le_one hpos]
      exact_mod_cast Finset.card_le_card
        (Finset.Subset.trans Finset.inter_subset_left Finset.subset_union_left)

/-- The token set of the empty string is empty. -/
theorem tokens_empty : tokens "" = ∅ := rfl

/-- An identical pair of strings with a non-empty token set scores exactly one. -/
theorem calculate_similarity_self (s : String) (h : tokens s ≠ ∅) :
    calculate_similarity s s = 1 := by
  have hs : s ≠ "" := by
    intro hs
    exact h (hs ▸ tokens_empty)
  have hcard : (tokens s ∪ tokens s).card ≠ 0 := by
    rw [Finset.union_self]
    simp only [ne_eq, Finset.card_eq_zero]
    exact h
  unfold calculate_similarity
  rw [if_neg (by rintro (h1 | h2) <;> exact hs (by assumption)), if_neg hcard,
    Finset.inter_self, Finset.union_self]
  refine div_self ?_
  rw [Finset.union_self] at hcard
  exact_mod_cast hcard

/-- C7: the similarity scorer is symmetric, and an empty first argument
always scores `0.0`: for all strings `a`, `b`,
`calculate_similarity a b = calculate_similarity b a`, and for every `x`,
`calculate_similarity "" x = 0`. -/
theorem C7_similarity_symm_and_empty :
    (∀ a b : String, calculate_similarity a b = calculate_similarity b a) ∧
    (∀ x : String, calculate_similarity "" x = 0) := by
  constructor
  · intro a b
    unfold calculate_similarity
    by_cases h : a = "" ∨ b = ""
    · rw [if_pos h, if_pos h.symm]
    · rw [if_neg h, if_neg (fun hc : b = "" ∨ a = "" => h hc.symm),
        Finset.union_comm (tokens b) (tokens a), Finset.inter_comm (tokens b) (tokens a)]
  · intro x
    unfold calculate_similarity
    rw [if_pos (Or.inl rfl)]

/-- C4 counterexample: the claim "identical non-empty strings score 1.0" is
false at the non-empty string `"."` — its normalisation deletes the
punctuation, the token set is empty, and the self-similarity is `0`, not
`1`. -/
theorem C4_counterexample :
    ("." : String) ≠ "" ∧ calculate_similarity "." "." = 0 ∧
      calculate_similarity "." "." ≠ 1 := by
  refine ⟨by decide, by decide, by decide⟩

/-- C4 (amended): every similarity score lies in `[0, 1]`, and
`calculate_similarity s s = 1` for every string `s` whose normalised token
set is non-empty (rather than for every non-empty `s`: a non-empty string
made only of punctuation and whitespace has an empty token set and scores
`0` against itself). -/
theorem C4_similarity_range_and_self (a b s : String) (h : tokens s ≠ ∅) :
    0 ≤ calculate_similarity a b ∧ calculate_similarity a b ≤ 1 ∧
      calculate_similarity s s = 1 :=
  ⟨calculate_similarity_nonneg a b, calculate_similarity_le_one a b,
    calculate_similarity_self s h⟩

/-- C4 witness: the amended theorem applied at `a = "."`, `b = ""` and the
ordinary title word `s = "juros"`. -/
theorem C4_witness :
    tokens "juros" ≠ ∅ ∧
      (0 ≤ calculate_similarity "." "" ∧ calculate_similarity "." "" ≤ 1 ∧
        calculate_similarity "juros" "juros" = 1) :=
  ⟨by decide, C4_similarity_range_and_self "." "" "juros" (by decide)⟩

/-- The inner removal loop only grows the `to_remove` set. -/
theorem removeInner_subset (titles : List String) (t : ℚ) (i : ℕ) :
    ∀ (js : List ℕ) (rem : Finset ℕ), rem ⊆ removeInner titles t i rem js := by
  intro js
  induction js with
  | nil => intro rem; exact Finset.Subset.refl rem
  | cons j js ih =>
    intro rem
    unfold removeInner
    by_cases hj : j ∈ rem
    · rw [if_pos hj]; exact ih rem
    · rw [if_neg hj]
      by_cases hsim : t ≤ calculate_similarity (titles.getD i "") (titles.getD j "")
      · rw [if_pos hsim]
        exact (Finset.subset_insert j rem).trans (ih (insert j rem))
      · rw [if_neg hsim]; exact ih rem

/-- A candidate index reached by the inner loop and still unmarked
afterwards was compared and found below the threshold. -/
theorem removeInner_not_mem (titles : List String) (t : ℚ) (i : ℕ) :
    ∀ (js : List ℕ) (rem : Finset ℕ) (q : ℕ), q ∈ js →
      q ∉ removeInner titles t i rem js →
      calculate_similarity (titles.getD i "") (titles.getD q "") < t := by
  intro js
  induction js with
  | nil => intro rem q hq; exact absurd hq (List.not_mem_nil q)
  | cons j js ih =>
    intro rem q hq hnot
    unfold removeInner at hnot
    by_cases hj : j ∈ rem
    · rw [if_pos hj] at hnot
      rcases List.mem_cons.mp hq with rfl | hq'
      · exact absurd (removeInner_subset titles t i js rem hj) hnot
      · exact ih rem q hq' hnot
    · rw [if_neg hj] at hnot
      by_cases hsim : t ≤ calculate_similarity (titles.getD i "") (titles.getD j "")
      · rw [if_pos hsim] at hnot
        rcases List.mem_cons.mp hq with rfl | hq'
        · exact absurd
            (removeInner_subset titles t i js _ (Finset.mem_insert_self q rem)) hnot
        · exact ih _ q hq' hnot
      · rw [if_neg hsim] at hnot
        rcases List.mem_cons.mp hq with rfl | hq'
        · exact not_le.mp hsim
        · exact ih rem q hq' hnot

/-- One outer iteration only grows the `to_remove` set. -/
theorem removeOuter_step (titles : List String) (t : ℚ) (n : ℕ) :
    removeOuter titles t n ⊆ removeOuter titles t (n + 1) := by
  show removeOuter titles t n ⊆
    (if n ∈ removeOuter titles t n then removeOuter titles t n
     else removeInner titles t n (removeOuter titles t n)
       (List.range' (n + 1) (titles.length - (n + 1))))
  by_cases hn : n ∈ removeOuter titles t n
  · rw [if_pos hn]
  · rw [if_neg hn]; exact removeInner_subset titles t n _ _

/-- The `to_remove` set grows monotonically along the outer loop. -/
theorem removeOuter_mono (titles : List String) (t : ℚ) {m n : ℕ} (h : m ≤ n) :
    removeOuter titles t m ⊆ removeOuter titles t n := by
  induction n with
  | zero => rw [Nat.le_zero.mp h]
  | succ n ih =>
    rcases Nat.lt_succ_iff_lt_or_eq.mp (Nat.lt_succ_of_le h) with hlt | rfl
    · exact (ih (Nat.lt_succ_iff.mp hlt)).trans (removeOuter_step titles t n)
    · exact Finset.Subset.refl _

/-- Core invariant of the collapsing pass: two indices that both survive
`remove_similar_news` were compared, and their similarity is below the
threshold. -/
theorem removalSet_spec (titles : List String) (t : ℚ) {p q : ℕ} (hpq : p < q)
    (hq : q < titles.length) (hp : p ∉ removalSet titles t)
    (hq2 : q ∉ removalSet titles t) :
    calculate_similarity (titles.getD p "") (titles.getD q "") < t := by
  have hpp : p ∉ removeOuter titles t p :=
    fun hc => hp (removeOuter_mono titles t (by omega) hc)
  have hq3 : q ∉ removeOuter titles t (p + 1) :=
    fun hc => hq2 (removeOuter_mono titles t (by omega) hc)
  have hunf : removeOuter titles t (p + 1) =
      removeInner titles t p (removeOuter titles t p)
        (List.range' (p + 1) (titles.length - (p + 1))) := by
    show (if p ∈ removeOuter titles t p then removeOuter titles t p
      else removeInner titles t p (removeOuter titles t p)
        (List.range' (p + 1) (titles.length - (p + 1)))) = _
    rw [if_neg hpp]
  rw [hunf] at hq3
  refine removeInner_not_mem titles t p _ _ q ?_ hq3
  rw [List.mem_range']
  exact ⟨q - (p + 1), by omega, by omega⟩

/-- The title column `df['title'].tolist()` read at an in-range row
position is that row's title. -/
theorem map_title_getD (items : List Item) (i : ℕ) (h : i < items.length) :
    (items.map (fun x => x.title)).getD i "" = items[i].title := by
  rw [List.getD_eq_getElem?_getD,
    List.getElem?_eq_getElem (by simpa using h)]
  simp

/-- Pairwise form of the collapsing invariant: in the output of
`remove_similar_news`, any earlier surviving row and any later surviving
row have title similarity strictly below the threshold. -/
theorem remove_similar_news_pairwise (items : List Item) (t : ℚ) :
    (remove_similar_news items t).Pairwise
      (fun a b => calculate_similarity a.title b.title < t) := by
  unfold remove_similar_news
  rw [List.pairwise_map, List.pairwise_filter, List.enum_eq_enumFrom,
    List.pairwise_iff_getElem]
  intro i j hi hj hij
  rw [List.getElem_enumFrom, List.getElem_enumFrom]
  intro hpi hpj
  have hi' : i < items.length := by simpa using hi
  have hj' : j < items.length := by simpa using hj
  have := removalSet_spec (items.map (fun x => x.title)) t
    (p := 0 + i) (q := 0 + j) (by omega) (by simpa using hj')
    (by simpa using hpi) (by simpa using hpj)
  rw [map_title_getD items (0 + i) (by omega),
    map_title_getD items (0 + j) (by omega)] at this
  simpa using this

/-- C1: near-duplicate collapser invariant — for every input sequence of
items and every threshold `t`, after `remove_similar_news(df, t)` no two
distinct surviving items (an earlier and a later survivor) have title
similarity `≥ t`: every surviving pair scores strictly below `t`. -/
theorem C1_no_similar_survivors (items : List Item) (t : ℚ) :
    (remove_similar_news items t).Pairwise
      (fun a b => calculate_similarity a.title b.title < t) :=
  remove_similar_news_pairwise items t

/-- If every candidate compares below the threshold, the inner loop marks
nothing. -/
theorem removeInner_of_lt (titles : List String) (t : ℚ) (i : ℕ) :
    ∀ (js : List ℕ) (rem : Finset ℕ),
      (∀ j ∈ js, calculate_similarity (titles.getD i "") (titles.getD j "") < t) →
      removeInner titles t i rem js = rem := by
  intro js
  induction js with
  | nil => intro rem _; rfl
  | cons j js ih =>
    intro rem h
    unfold removeInner
    by_cases hj : j ∈ rem
    · rw [if_pos hj]
      exact ih rem (fun q hq => h q (List.mem_cons_of_mem j hq))
    · rw [if_neg hj, if_neg (not_le.mpr (h j (List.mem_cons_self j js)))]
      exact ih rem (fun q hq => h q (List.mem_cons_of_mem j hq))

/-- If all in-range pairs compare below the threshold, the whole pass marks
nothing. -/
theorem removeOuter_of_lt (titles : List String) (t : ℚ)
    (h : ∀ p q : ℕ, p < q → q < titles.length →
      calculate_similarity (titles.getD p "") (titles.getD q "") < t) :
    ∀ n : ℕ, removeOuter titles t n = ∅ := by
  intro n
  induction n with
  | zero => rfl
  | succ n ih =>
    show (if n ∈ removeOuter titles t n then removeOuter titles t n
      else removeInner titles t n (removeOuter titles t n)
        (List.range' (n + 1) (titles.length - (n + 1)))) = ∅
    rw [ih, if_neg (Finset.not_mem_empty n)]
    refine removeInner_of_lt titles t n _ ∅ ?_
    intro j hj
    rw [List.mem_range'] at hj
    obtain ⟨k, hk, rfl⟩ := hj
    exact h n (n + 1 + 1 * k) (by omega) (by omega)

/-- A frame whose rows already satisfy the pairwise similarity bound passes
through `remove_similar_news` unchanged. -/
theorem remove_similar_news_of_pairwise (items : List Item) (t : ℚ)
    (h : items.Pairwise (fun a b => calculate_similarity a.title b.title < t)) :
    remove_similar_news items t = items := by
  have hempty : removalSet (items.map (fun x => x.title)) t = ∅ := by
    refine removeOuter_of_lt _ t ?_ _
    intro p q hpq hq
    have hq' : q < items.length := by simpa using hq
    rw [map_title_getD items p (by omega), map_title_getD items q (by omega)]
    rw [List.pairwise_iff_getElem] at h
    exact h p q (by omega) hq' hpq
  unfold remove_similar_news
  rw [hempty]
  have : ∀ p : ℕ × Item, p ∈ items.enum → decide (p.1 ∉ (∅ : Finset ℕ)) = true := by
    intro p _
    simp
  rw [List.filter_eq_self.mpr this, List.enum_eq_enumFrom, List.enumFrom_map_snd]

/-- C10: the near-duplicate collapser is idempotent — applying
`remove_similar_news` with the same threshold to its own output removes
nothing and returns the output unchanged. -/
theorem C10_remove_similar_idempotent (items : List Item) (t : ℚ) :
    remove_similar_news (remove_similar_news items t) t =
      remove_similar_news items t :=
  remove_similar_news_of_pairwise _ t (remove_similar_news_pairwise items t)

/-- The seen-set recursion of the exact-duplicate filter agrees with the
spec's "first occurrence per fingerprint group" reading, for any seen set
matching the fingerprints of the already-scanned prefix. -/
theorem dedupExactGo_eq_firstOccByKeyGo :
    ∀ (xs : List Item) (seen : Finset String) (prev : List Item),
      (∀ k : String, k ∈ seen ↔ ∃ y ∈ prev, itemKey y = k) →
      dedupExactGo seen xs = firstOccByKeyGo prev xs := by
  intro xs
  induction xs with
  | nil => intro seen prev _; rfl
  | cons x xs ih =>
    intro seen prev hinv
    show (if itemKey x ∈ seen then dedupExactGo seen xs
        else x :: dedupExactGo (insert (itemKey x) seen) xs) =
      (if prev.any (fun y => itemKey y == itemKey x) then firstOccByKeyGo (prev ++ [x]) xs
        else x :: firstOccByKeyGo (prev ++ [x]) xs)
    have hcond : itemKey x ∈ seen ↔ prev.any (fun y => itemKey y == itemKey x) = true := by
      rw [hinv, List.any_eq_true]
      simp
    by_cases hc : itemKey x ∈ seen
    · rw [if_pos hc, if_pos (hcond.mp hc)]
      refine ih seen (prev ++ [x]) ?_
      intro k
      rw [hinv]
      constructor
      · rintro ⟨y, hy, hky⟩
        exact ⟨y, List.mem_append_left _ hy, hky⟩
      · rintro ⟨y, hy, rfl⟩
        rcases List.mem_append.mp hy with hy' | hy'
        · exact ⟨y, hy', rfl⟩
        · rw [List.mem_singleton.mp hy']
          exact (hinv (itemKey x)).mp hc
    · rw [if_neg hc, if_neg (fun hb => hc (hcond.mpr hb))]
      congr 1
      refine ih _ (prev ++ [x]) ?_
      intro k
      rw [Finset.mem_insert, hinv]
      constructor
      · rintro (rfl | ⟨y, hy, hky⟩)
        · exact ⟨x, List.mem_append_right _ (List.mem_singleton.mpr rfl), rfl⟩
        · exact ⟨y, List.mem_append_left _ hy, hky⟩
      · rintro ⟨y, hy, rfl⟩
        rcases List.mem_append.mp hy with hy' | hy'
        · exact Or.inr ⟨y, hy', rfl⟩
        · rw [List.mem_singleton.mp hy']
          exact Or.inl rfl

/-- The exact-duplicate filter is order-preserving: its output is a sublist
of its input. -/
theorem dedupExactGo_sublist :
    ∀ (xs : List Item) (seen : Finset String), List.Sublist (dedupExactGo seen xs) xs := by
  intro xs
  induction xs with
  | nil => intro seen; exact List.Sublist.refl []
  | cons x xs ih =>
    intro seen
    show List.Sublist (if itemKey x ∈ seen then dedupExactGo seen xs
        else x :: dedupExactGo (insert (itemKey x) seen) xs) (x :: xs)
    by_cases hc : itemKey x ∈ seen
    · rw [if_pos hc]
      exact (ih seen).cons x
    · rw [if_neg hc]
      exact (ih _).cons₂ x

/-- C2 counterexample: with duplicate groups read as the spec defines them
(identical title AND identical link), the claim fails — the two items below
have different `(title, link)` pairs, so the claimed output keeps both, yet
the filter keys on the concatenation `"ab" ++ "c" = "a" ++ "bc"` and drops
the second. -/
theorem C2_counterexample :
    firstOccByPair [⟨"ab", "c", "", 0, ""⟩, ⟨"a", "bc", "", 1, ""⟩] =
        [⟨"ab", "c", "", 0, ""⟩, ⟨"a", "bc", "", 1, ""⟩] ∧
      dedupExact [⟨"ab", "c", "", 0, ""⟩, ⟨"a", "bc", "", 1, ""⟩] =
        [⟨"ab", "c", "", 0, ""⟩] ∧
      dedupExact [⟨"ab", "c", "", 0, ""⟩, ⟨"a", "bc", "", 1, ""⟩] ≠
        firstOccByPair [⟨"ab", "c", "", 0, ""⟩, ⟨"a", "bc", "", 1, ""⟩] :=
  ⟨by decide, by decide, by decide⟩

/-- C2 (amended): the exact-duplicate filter keeps, for each duplicate
group *formed by the dedup fingerprint (the concatenation `title ++ link`)*
— rather than by the `(title, link)` pair — only the first-encountered item
in input order; it is order-preserving (the output is a sublist of the
input); and on `[A(t1,l1), B(t1,l1), C(t2,l2)]` it yields `[A, C]`. -/
theorem C2_dedup_first_occurrence (items : List Item) :
    dedupExact items = firstOccByKey items ∧
      List.Sublist (dedupExact items) items ∧
      dedupExact [⟨"t1", "l1", "sA", 0, "q"⟩, ⟨"t1", "l1", "sB", 1, "q"⟩,
          ⟨"t2", "l2", "sC", 2, "q"⟩] =
        [⟨"t1", "l1", "sA", 0, "q"⟩, ⟨"t2", "l2", "sC", 2, "q"⟩] :=
  ⟨dedupExactGo_eq_firstOccByKeyGo items ∅ [] (by simp),
    dedupExactGo_sublist items ∅, by decide⟩

/-- No kept item's fingerprint lies in the initial seen set. -/
theorem dedupExactGo_not_seen :
    ∀ (xs : List Item) (seen : Finset String) (x : Item),
      x ∈ dedupExactGo seen xs → itemKey x ∉ seen := by
  intro xs
  induction xs with
  | nil => intro seen x hx; exact absurd hx (List.not_mem_nil x)
  | cons y ys ih =>
    intro seen x hx
    revert hx
    show x ∈ (if itemKey y ∈ seen then dedupExactGo seen ys
        else y :: dedupExactGo (insert (itemKey y) seen) ys) → itemKey x ∉ seen
    by_cases hc : itemKey y ∈ seen
    · rw [if_pos hc]
      exact ih seen x
    · rw [if_neg hc]
      intro hx
      rcases List.mem_cons.mp hx with rfl | hx'
      · exact hc
      · intro hk
        exact ih _ x hx' (Finset.mem_insert_of_mem hk)

/-- The kept items have pairwise distinct fingerprints. -/
theorem dedupExactGo_pairwise :
    ∀ (xs : List Item) (seen : Finset String),
      (dedupExactGo seen xs).Pairwise (fun a b => itemKey a ≠ itemKey b) := by
  intro xs
  induction xs with
  | nil => intro seen; exact List.Pairwise.nil
  | cons y ys ih =>
    intro seen
    show (if itemKey y ∈ seen then dedupExactGo seen ys
        else y :: dedupExactGo (insert (itemKey y) seen) ys).Pairwise _
    by_cases hc : itemKey y ∈ seen
    · rw [if_pos hc]
      exact ih seen
    · rw [if_neg hc]
      refine List.Pairwise.cons ?_ (ih _)
      intro b hb hkb
      exact dedupExactGo_not_seen ys _ b hb (hkb ▸ Finset.mem_insert_self _ _)

/-- A list with pairwise distinct fingerprints, none already seen, passes
through the filter unchanged. -/
theorem dedupExactGo_of_pairwise :
    ∀ (xs : List Item) (seen : Finset String),
      (∀ x ∈ xs, itemKey x ∉ seen) →
      xs.Pairwise (fun a b => itemKey a ≠ itemKey b) →
      dedupExactGo seen xs = xs := by
  intro xs
  induction xs with
  | nil => intro seen _ _; rfl
  | cons y ys ih =>
    intro seen hseen hpw
    show (if itemKey y ∈ seen then dedupExactGo seen ys
        else y :: dedupExactGo (insert (itemKey y) seen) ys) = y :: ys
    rw [if_neg (hseen y (List.mem_cons_self y ys))]
    congr 1
    refine ih _ ?_ (List.Pairwise.of_cons hpw)
    intro x hx
    rw [Finset.mem_insert]
    rintro (hk | hk)
    · exact (List.pairwise_cons.mp hpw).1 x hx hk.symm
    · exact hseen x (List.mem_cons_of_mem y hx) hk

/-- C8: exact-dedup idempotence — applying the exact-duplicate filter to
its own output returns that output unchanged, for every batch. -/
theorem C8_dedup_idempotent (items : List Item) :
    dedupExact (dedupExact items) = dedupExact items :=
  dedupExactGo_of_pairwise (dedupExactGo ∅ items) ∅
    (fun x _ => Finset.not_mem_empty (itemKey x))
    (dedupExactGo_pairwise items ∅)

/-- C9: the dedup key depends only on the unseparated concatenation
`(title or "") + (link or "")` — equal concatenations give equal
fingerprints — so exact-dedup collapses items whose `(title, link)` pairs
differ, e.g. `("ab", "c")` and `("a", "bc")` collapse to the first. -/
theorem C9_dedup_key_concatenation :
    (∀ x y : Item, x.title ++ x.link = y.title ++ y.link → itemKey x = itemKey y) ∧
      (⟨"ab", "c", "s1", 0, "q"⟩ : Item).title ≠ (⟨"a", "bc", "s2", 1, "q"⟩ : Item).title ∧
      (⟨"ab", "c", "s1", 0, "q"⟩ : Item).link ≠ (⟨"a", "bc", "s2", 1, "q"⟩ : Item).link ∧
      dedupExact [⟨"ab", "c", "s1", 0, "q"⟩, ⟨"a", "bc", "s2", 1, "q"⟩] =
        [⟨"ab", "c", "s1", 0, "q"⟩] :=
  ⟨fun x y h => h, by decide, by decide, by decide⟩

/-- C5: the blacklist filter removes exactly the items whose title contains
some configured term as a whole, word-boundary-delimited word, matched
case-insensitively; a term inside a longer word does not match
(blacklist `["esporte"]` removes "Governo anuncia novo esporte olímpico"
but keeps "Esportivamente falando, juros sobem"); an absent title never
matches; and an empty blacklist is the identity. -/
theorem C5_blacklist_whole_word :
    (∀ items : List Item, filter_blacklist items [] = items) ∧
      (∀ blacklist : List String, blacklistMatches blacklist none = false) ∧
      (∀ (items : List Item) (blacklist : List String),
        filter_blacklist items blacklist =
          items.filter (fun x => !(blacklist.any (fun w => wordMatch w x.title)))) ∧
      wordMatch "esporte" "Governo anuncia novo esporte olímpico" = true ∧
      wordMatch "esporte" "Esportivamente falando, juros sobem" = false ∧
      filter_blacklist
          [⟨"Governo anuncia novo esporte olímpico", "l1", "", 0, "q"⟩,
            ⟨"Esportivamente falando, juros sobem", "l2", "", 1, "q"⟩]
          ["esporte"] =
        [⟨"Esportivamente falando, juros sobem", "l2", "", 1, "q"⟩] := by
  refine ⟨fun items => rfl, fun blacklist => rfl, ?_, by decide, by decide, by decide⟩
  intro items blacklist
  by_cases hb : blacklist = []
  · subst hb
    exact (List.filter_eq_self.mpr (fun a _ => rfl)).symm
  · unfold filter_blacklist
    rw [if_neg hb]
    rfl

/-- The stable descending (priority, published_at, position) comparison is
transitive. -/
theorem priorityLe_trans (prefer : List String) (a b c : ℕ × Item) :
    priorityLe prefer a b → priorityLe prefer b c → priorityLe prefer a c := by
  simp only [priorityLe, Bool.or_eq_true, Bool.and_eq_true, decide_eq_true_eq]
  omega

/-- The stable descending (priority, published_at, position) comparison is
total. -/
theorem priorityLe_total (prefer : List String) (a b : ℕ × Item) :
    priorityLe prefer a b || priorityLe prefer b a := by
  simp only [priorityLe, Bool.or_eq_true, Bool.and_eq_true, decide_eq_true_eq]
  omega

/-- The sorted enumerated frame is sorted for the comparison. -/
theorem prioritizeEnum_sorted (items : List Item) (prefer : List String) :
    (prioritizeEnum items prefer).Pairwise
      (fun a b => priorityLe prefer a b = true) :=
  List.sorted_mergeSort (priorityLe_trans prefer) (priorityLe_total prefer) items.enum

/-- Original row positions stay pairwise distinct after sorting. -/
theorem prioritizeEnum_fst_pairwise (items : List Item) (prefer : List String) :
    (prioritizeEnum items prefer).Pairwise (fun a b => a.1 ≠ b.1) := by
  have hperm : (prioritizeEnum items prefer).Perm items.enum :=
    List.mergeSort_perm items.enum (priorityLe prefer)
  have hnd : ((prioritizeEnum items prefer).map Prod.fst).Nodup := by
    refine ((hperm.map Prod.fst).nodup_iff).mpr ?_
    rw [List.enum_eq_enumFrom, List.enumFrom_map_fst]
    exact List.nodup_range' 0 items.length
  rw [List.Nodup, List.pairwise_map] at hnd
  exact hnd

/-- C3: priority-orderer stability — for every item sequence and non-empty
preference list, `prioritize` is the stable descending sort by
(priority score, published_at): `prioritize` returns the projection of the
sorted enumerated frame, and in that sorted frame any two rows with equal
priority score and equal `published_at` keep their original relative
position order. -/
theorem C3_prioritize_stable (items : List Item) (prefer : List String)
    (hp : prefer ≠ []) :
    prioritize items prefer = (prioritizeEnum items prefer).map Prod.snd ∧
      (prioritizeEnum items prefer).Pairwise (fun p q =>
        priorityScore prefer p.2.link = priorityScore prefer q.2.link →
          p.2.published_at = q.2.published_at → p.1 < q.1) := by
  constructor
  · unfold prioritize
    rw [if_neg hp]
  · refine List.Pairwise.imp ?_
      ((prioritizeEnum_sorted items prefer).and
        (prioritizeEnum_fst_pairwise items prefer))
    rintro a b ⟨hab, hne⟩ hs hpub
    simp only [priorityLe, Bool.or_eq_true, Bool.and_eq_true,
      decide_eq_true_eq] at hab
    omega

/-- C3 witness: the theorem instantiated at a concrete frame with a genuine
tie (two rows with no preferred source and equal timestamps) and the
non-empty preference list `["valor.com.br"]`. -/
theorem C3_witness :
    prioritize [⟨"A", "x.com", "", 5, "q"⟩, ⟨"B", "y.com", "", 5, "q"⟩]
        ["valor.com.br"] =
      (prioritizeEnum [⟨"A", "x.com", "", 5, "q"⟩, ⟨"B", "y.com", "", 5, "q"⟩]
        ["valor.com.br"]).map Prod.snd ∧
    (prioritizeEnum [⟨"A", "x.com", "", 5, "q"⟩, ⟨"B", "y.com", "", 5, "q"⟩]
      ["valor.com.br"]).Pairwise (fun p q =>
        priorityScore ["valor.com.br"] p.2.link =
            priorityScore ["valor.com.br"] q.2.link →
          p.2.published_at = q.2.published_at → p.1 < q.1) :=
  C3_prioritize_stable [⟨"A", "x.com", "", 5, "q"⟩, ⟨"B", "y.com", "", 5, "q"⟩]
    ["valor.com.br"] (by simp)

/-- Modelled from the spec's ordering example: the three source classes of
an item for the preference list `["valor.com.br", "infomoney.com.br"]` —
`0` for a link containing `valor.com.br`, `1` for one containing
`infomoney.com.br`, `2` for neither. -/
def rank6 (x : Item) : ℕ :=
  if strContains x.link "valor.com.br" then 0
  else if strContains x.link "infomoney.com.br" then 1 else 2

/-- Score table of `prioritize` for the two-element preference list of the
spec example. -/
theorem priorityScore_two (url : String) :
    priorityScore ["valor.com.br", "infomoney.com.br"] url =
      if strContains url "valor.com.br" = true then 100
      else if strContains url "infomoney.com.br" = true then 99 else 0 := by
  by_cases h1 : strContains url "valor.com.br" = true <;>
    by_cases h2 : strContains url "infomoney.com.br" = true <;>
      simp [priorityScore, priorityScoreAux, h1, h2]

/-- Any sorted row's item is an input item. -/
theorem prioritizeEnum_snd_mem (items : List Item) (prefer : List String)
    (p : ℕ × Item) (hp : p ∈ prioritizeEnum items prefer) : p.2 ∈ items := by
  have hmem : p ∈ items.enum :=
    (List.mergeSort_perm items.enum (priorityLe prefer)).mem_iff.mp hp
  exact List.getElem?_mem (List.mem_enum_iff_getElem?.mp hmem)

/-- C6: with preference list `["valor.com.br", "infomoney.com.br"]`, for
items whose links each contain at most one of the two substrings, the
output of `prioritize` is ordered by source class — every `valor.com.br`
item before every `infomoney.com.br` item before every item matching
neither — and among the items matching neither, later `published_at`
first. -/
theorem C6_priority_ordering (items : List Item)
    (h : ∀ x ∈ items, ¬(strContains x.link "valor.com.br" = true ∧
      strContains x.link "infomoney.com.br" = true)) :
    (prioritize items ["valor.com.br", "infomoney.com.br"]).Pairwise
      (fun a b => rank6 a ≤ rank6 b ∧
        (rank6 a = 2 → rank6 b = 2 → b.published_at ≤ a.published_at)) := by
  unfold prioritize
  rw [if_neg (by simp), List.pairwise_map]
  refine List.Pairwise.imp_of_mem ?_
    (prioritizeEnum_sorted items ["valor.com.br", "infomoney.com.br"])
  intro a b ha hb hab
  have hA := h a.2 (prioritizeEnum_snd_mem items _ a ha)
  have hB := h b.2 (prioritizeEnum_snd_mem items _ b hb)
  have hsA := priorityScore_two a.2.link
  have hsB := priorityScore_two b.2.link
  simp only [priorityLe, Bool.or_eq_true, Bool.and_eq_true,
    decide_eq_true_eq] at hab
  rw [hsA, hsB] at hab
  unfold rank6
  by_cases hv1 : strContains a.2.link "valor.com.br" = true <;>
    by_cases hi1 : strContains a.2.link "infomoney.com.br" = true <;>
      by_cases hv2 : strContains b.2.link "valor.com.br" = true <;>
        by_cases hi2 : strContains b.2.link "infomoney.com.br" = true <;>
          (simp [hv1, hi1, hv2, hi2] at hA hB hab ⊢ <;> omega)

/-- C6 witness: the theorem instantiated at a concrete three-item frame
(one link per source class), whose links each contain at most one of the
two preferred substrings. -/
theorem C6_witness :
    (prioritize
        [⟨"N", "https://x.com/a", "", 9, "q"⟩,
          ⟨"I", "https://infomoney.com.br/a", "", 8, "q"⟩,
          ⟨"V", "https://valor.com.br/a", "", 1, "q"⟩]
        ["valor.com.br", "infomoney.com.br"]).Pairwise
      (fun a b => rank6 a ≤ rank6 b ∧
        (rank6 a = 2 → rank6 b = 2 → b.published_at ≤ a.published_at)) :=
  C6_priority_ordering
    [⟨"N", "https://x.com/a", "", 9, "q"⟩,
      ⟨"I", "https://infomoney.com.br/a", "", 8, "q"⟩,
      ⟨"V", "https://valor.com.br/a", "", 1, "q"⟩]
    (by decide)
